import Mathlib

/-!
Bit manipulation macros of `bits.h`.

A shallow embedding of the seven macros of `src/bits.h`

    #define b(bit)                   (1 << (bit))
    #define bSet(binary,bit)         ((binary) |= (1 << (bit)))
    #define bClear(binary,bit)       ((binary) &= ~(1 << (bit)))
    #define bFlip(binary,bit)        ((binary) ^= (1 << (bit)))
    #define bWrite(binary,bit,value) (value ? ((binary) |= (1 << (bit))) : ((binary) &= ~(1 << (bit))))
    #define bGet(binary,bit)         ((binary) & (1 << (bit)))
    #define bTrue(binary,bit)        (((binary) >> (bit)) & 1)

The macros are expressions of the host language, so what they compute is fixed by the
integer rules of that language: the literal `1` has type `int`, the operands of a binary
operator are promoted and brought to a common type, a compound assignment converts the
result back to the type of `binary`, and a shift whose count is not below the width of
the promoted left operand is undefined.

Integers are modelled by their two's-complement bit pattern: a value of a type of width
`w` is a natural number below `2 ^ w`.  The width of `int` is a parameter `IW`
(16 on the AVR targets the header names, 32 on common hosts).  An undefined shift makes
the whole macro `none`.  The left shift `1 << (IW - 1)` is taken to give the pattern
`2 ^ (IW - 1)` (the value `INT_MIN`), which is what C++20 defines and what GCC documents
for the earlier standards.  A right shift of a signed value is arithmetic.

The macros put `binary` and `bit` in parentheses, but `bWrite` pastes its third argument
`value` bare in front of `?`.  The flag is therefore modelled as the text of the
argument, by its outermost operator (`FlagArg`), and `bWrite` follows the way the
expansion parses: a flag written as a conditional or an assignment expression
re-associates with the conditional operator of the macro.
-/

namespace Bits

/-- A C integer type: its width in bits and whether it is signed. -/
structure CType where
  width : Nat
  isSigned : Bool
deriving DecidableEq

/-- The type `int` on a target whose `int` has `IW` bits. -/
def cInt (IW : Nat) : CType := ⟨IW, true⟩

/-- Integer promotion: every type narrower than `int` becomes `int`,
every other type is kept. -/
def promote (IW : Nat) (t : CType) : CType :=
  if t.width < IW then cInt IW else t

/-- Usual arithmetic conversions on two promoted types: the wider type wins; at equal
width the result is signed only when both operands are. -/
def commonType (s t : CType) : CType :=
  if s.width < t.width then t
  else if t.width < s.width then s
  else ⟨s.width, s.isSigned && t.isSigned⟩

/-- Conversion of the bit pattern `x` of type `s` to type `d`: truncation when `d` is not
wider, sign extension when `s` is signed and the sign bit of `x` is set, zero extension
otherwise. -/
def convert (s d : CType) (x : Nat) : Nat :=
  if d.width ≤ s.width then x % 2 ^ d.width
  else if s.isSigned && x.testBit (s.width - 1) then
    x ||| ((2 ^ (d.width - s.width) - 1) <<< s.width)
  else x

/-- The operator `E1 << E2` on a promoted left operand of type `t`: undefined when the
count is not below the width of `t`, otherwise the shifted pattern cut to that width. -/
def shl (t : CType) (x n : Nat) : Option Nat :=
  if n < t.width then some ((x <<< n) % 2 ^ t.width) else none

/-- The operator `E1 >> E2` on a promoted left operand of type `t`: undefined when the
count is not below the width of `t`; the vacated high bits are copies of the sign bit for
a signed type and zero for an unsigned one. -/
def shr (t : CType) (x n : Nat) : Option Nat :=
  if n < t.width then
    some (if t.isSigned && x.testBit (t.width - 1) then
            (x >>> n) ||| ((2 ^ n - 1) <<< (t.width - n))
          else x >>> n)
  else none

/-- The operator `~E` on a promoted operand of type `t`. -/
def bnot (t : CType) (x : Nat) : Nat := 2 ^ t.width - 1 - x

/-- A binary bitwise operator `f` applied to `x : s` and `y : t`: both operands are
promoted, then converted to the common type, in which the operator is computed.  The
result is the pair of the common type and the resulting pattern. -/
def binop (IW : Nat) (f : Nat → Nat → Nat) (s : CType) (x : Nat) (t : CType) (y : Nat) :
    CType × Nat :=
  let ps := promote IW s
  let pt := promote IW t
  let c := commonType ps pt
  (c, f (convert ps c (convert s ps x)) (convert pt c (convert t pt y)))

/-- The assignment half of a compound assignment `binary op= rhs`: the result of
`binary op rhs` is converted back to the type `t` of `binary`. -/
def assign (t : CType) (r : CType × Nat) : Nat := convert r.1 t r.2

/-- Macro `#define b(bit) (1 << (bit))`: the mask, an `int`. -/
def b (IW : Nat) (bit : Nat) : Option Nat :=
  shl (cInt IW) 1 bit

/-- Macro `#define bSet(binary,bit) ((binary) |= (1 << (bit)))`: the new value of `binary`,
which has type `t` and value `v`. -/
def bSet (IW : Nat) (t : CType) (v bit : Nat) : Option Nat :=
  (shl (cInt IW) 1 bit).map fun m =>
    assign t (binop IW (· ||| ·) t v (cInt IW) m)

/-- Macro `#define bClear(binary,bit) ((binary) &= ~(1 << (bit)))`: the new value of
`binary`. -/
def bClear (IW : Nat) (t : CType) (v bit : Nat) : Option Nat :=
  (shl (cInt IW) 1 bit).map fun m =>
    assign t (binop IW (· &&& ·) t v (cInt IW) (bnot (cInt IW) m))

/-- Macro `#define bFlip(binary,bit) ((binary) ^= (1 << (bit)))`: the new value of
`binary`. -/
def bFlip (IW : Nat) (t : CType) (v bit : Nat) : Option Nat :=
  (shl (cInt IW) 1 bit).map fun m =>
    assign t (binop IW (· ^^^ ·) t v (cInt IW) m)

/-- The third argument of `bWrite` as the caller writes it, by its outermost operator.
`prim x` is an argument that binds tighter than the conditional operator (a literal, a
variable, a parenthesised expression, a call of `bTrue` or `bGet`) and has the value `x`.
`cond c m r` is the conditional expression `c ? m : r` written without parentheses: `c`
and `m` are the values of its first two operands, `r` is the text of its third.
`asg w r` is an assignment `u op= r` written without parentheses, to an object `u` other
than `binary`: `w` is the value this assignment expression has on its own, `r` is the
text of its right operand. -/
inductive FlagArg where
  | prim (x : Int)
  | cond (c m : Int) (r : FlagArg)
  | asg (w : Int) (r : FlagArg)

/-- The value of the flag argument, evaluated on its own as the caller wrote it. -/
def flagValue : FlagArg → Int
  | FlagArg.prim x => x
  | FlagArg.cond c m r => if c ≠ 0 then m else flagValue r
  | FlagArg.asg w _ => w

/-- Macro `#define bWrite(binary,bit,value) (value ? ((binary) |= (1 << (bit))) :
((binary) &= ~(1 << (bit))))`: the new value of `binary`.  The argument `value` is
pasted bare in front of `?`.  For `prim value` the expansion is the conditional of the
macro, which selects the first assignment when the value is not zero.  For `c ? m : r`
the expansion `c ? m : r ? ... : ...` parses as `c ? m : (r ? ... : ...)`: when `c` is
not zero the result is `m` and nothing is assigned to `binary`, otherwise the macro goes
on with `r` as its flag.  For `u op= r` the expansion parses as `u op= (r ? ... : ...)`:
`binary` is written with `r` as the flag. -/
def bWrite (IW : Nat) (t : CType) (v bit : Nat) : FlagArg → Option Nat
  | FlagArg.prim value =>
    if value ≠ 0 then
      (shl (cInt IW) 1 bit).map fun m =>
        assign t (binop IW (· ||| ·) t v (cInt IW) m)
    else
      (shl (cInt IW) 1 bit).map fun m =>
        assign t (binop IW (· &&& ·) t v (cInt IW) (bnot (cInt IW) m))
  | FlagArg.cond c _ r => if c ≠ 0 then some v else bWrite IW t v bit r
  | FlagArg.asg _ r => bWrite IW t v bit r

/-- Macro `#define bGet(binary,bit) ((binary) & (1 << (bit)))`: the value of the expression,
a pattern of the common type of the promoted `binary` and `int`. -/
def bGet (IW : Nat) (t : CType) (v bit : Nat) : Option Nat :=
  (shl (cInt IW) 1 bit).map fun m =>
    (binop IW (· &&& ·) t v (cInt IW) m).2

/-- Macro `#define bTrue(binary,bit) (((binary) >> (bit)) & 1)`: the value of the
expression. -/
def bTrue (IW : Nat) (t : CType) (v bit : Nat) : Option Nat :=
  (shr (promote IW t) (convert t (promote IW t) v) bit).map fun s =>
    (binop IW (· &&& ·) (promote IW t) s (cInt IW) 1).2

/-- The type `uint8_t`. -/
def u8 : CType := ⟨8, false⟩

/-- The type `int8_t`. -/
def i8 : CType := ⟨8, true⟩

/-- The type `uint32_t`. -/
def u32 : CType := ⟨32, false⟩

/-- The type `uint64_t`. -/
def u64 : CType := ⟨64, false⟩

/-- The native `W`-bit operation "`v` OR `2^b`" that `bSet` is compared with. -/
def nativeSet (v bit : Nat) : Nat := v ||| 2 ^ bit

/-- The native `W`-bit operation "`v` AND `(2^W - 1 - 2^b)`" that `bClear` is compared
with. -/
def nativeClear (W v bit : Nat) : Nat := v &&& (2 ^ W - 1 - 2 ^ bit)

/-- The native `W`-bit operation "`v` XOR `2^b`" that `bFlip` is compared with. -/
def nativeFlip (v bit : Nat) : Nat := v ^^^ 2 ^ bit

/-- The three macros that modify a single bit without a flag. -/
inductive Op where
  | set
  | clear
  | flip
deriving DecidableEq

/-- The macro named by `op`, applied to `binary` of type `t` and value `v` at `bit`. -/
def applyOp (IW : Nat) (t : CType) (op : Op) (v bit : Nat) : Option Nat :=
  match op with
  | Op.set => bSet IW t v bit
  | Op.clear => bClear IW t v bit
  | Op.flip => bFlip IW t v bit

/-- The native `W`-bit operation that the macro named by `op` is compared with. -/
def nativeOp (W : Nat) (op : Op) (v bit : Nat) : Nat :=
  match op with
  | Op.set => nativeSet v bit
  | Op.clear => nativeClear W v bit
  | Op.flip => nativeFlip v bit

/-- The integer denoted by the pattern `x` of type `t`: for a signed type a pattern with
the sign bit set denotes `x - 2 ^ width`. -/
def valueOf (t : CType) (x : Nat) : Int :=
  if t.isSigned && x.testBit (t.width - 1) then (x : Int) - 2 ^ t.width else (x : Int)

/-! ## Bits of a converted pattern -/

theorem testBit_convert_trunc (s d : CType) (x i : Nat) (h : d.width ≤ s.width) :
    (convert s d x).testBit i = (decide (i < d.width) && x.testBit i) := by
  simp [convert, h]

theorem testBit_high_ones (k w i : Nat) :
    ((2 ^ k - 1) <<< w).testBit i = (decide (w ≤ i) && decide (i < w + k)) := by
  rw [Nat.testBit_shiftLeft, Nat.testBit_two_pow_sub_one]
  by_cases h : w ≤ i
  · have : (i - w < k) ↔ (i < w + k) := by omega
    simp [h, this]
  · simp [h]

theorem testBit_convert_ext (s d : CType) (x i : Nat) (h : s.width < d.width)
    (hx : x < 2 ^ s.width) :
    (convert s d x).testBit i =
      if i < s.width then x.testBit i
      else (decide (i < d.width) && (s.isSigned && x.testBit (s.width - 1))) := by
  have hnot : ¬ d.width ≤ s.width := by omega
  have hhigh : s.width ≤ i → x.testBit i = false := fun hi =>
    Nat.testBit_lt_two_pow (Nat.lt_of_lt_of_le hx (Nat.pow_le_pow_right (by decide) hi))
  have hsum : s.width + (d.width - s.width) = d.width := by omega
  unfold convert
  rw [if_neg hnot]
  by_cases hs : (s.isSigned && x.testBit (s.width - 1)) = true
  · rw [if_pos hs, Nat.testBit_or, testBit_high_ones, hsum, hs]
    by_cases hi : i < s.width
    · have : ¬ s.width ≤ i := by omega
      simp [hi, this]
    · have : s.width ≤ i := by omega
      simp [hi, this, hhigh this]
  · rw [if_neg hs]
    have hs2 : (s.isSigned && x.testBit (s.width - 1)) = false := by simpa using hs
    by_cases hi : i < s.width
    · simp [hi]
    · have : s.width ≤ i := by omega
      rw [if_neg hi, hs2, hhigh this]
      simp

/-! ## Promotion and the common type with `int` -/

theorem promote_cInt (IW : Nat) : promote IW (cInt IW) = cInt IW := by
  simp [promote, cInt]

theorem promote_of_lt (IW : Nat) (t : CType) (h : t.width < IW) :
    promote IW t = cInt IW := by
  simp [promote, h]

theorem promote_of_le (IW : Nat) (t : CType) (h : IW ≤ t.width) :
    promote IW t = t := by
  have : ¬ t.width < IW := by omega
  simp [promote, this]

theorem promote_promote (IW : Nat) (t : CType) :
    promote IW (promote IW t) = promote IW t := by
  by_cases h : t.width < IW
  · rw [promote_of_lt IW t h, promote_cInt]
  · have h2 : IW ≤ t.width := by omega
    rw [promote_of_le IW t h2, promote_of_le IW t h2]

theorem commonType_promote_cInt (IW : Nat) (t : CType) :
    commonType (promote IW t) (cInt IW) = promote IW t := by
  by_cases h : t.width < IW
  · rw [promote_of_lt IW t h]
    simp [commonType, cInt]
  · have h2 : IW ≤ t.width := by omega
    rw [promote_of_le IW t h2]
    by_cases h3 : IW < t.width
    · have h4 : ¬ t.width < IW := by omega
      simp [commonType, cInt, h3, h4]
    · have h4 : ¬ t.width < IW := by omega
      simp [commonType, cInt, h3, h4]

theorem binop_cInt (IW : Nat) (f : Nat → Nat → Nat) (t : CType) (v y : Nat) :
    binop IW f t v (cInt IW) y =
      (promote IW t,
        f (convert (promote IW t) (promote IW t) (convert t (promote IW t) v))
          (convert (cInt IW) (promote IW t) (convert (cInt IW) (cInt IW) y))) := by
  simp only [binop, promote_cInt, commonType_promote_cInt]

/-- Bits of the left operand `binary` once promoted and brought to the common type. -/
theorem testBit_lhs (IW : Nat) (t : CType) (v i : Nat) (hv : v < 2 ^ t.width) :
    (convert (promote IW t) (promote IW t) (convert t (promote IW t) v)).testBit i =
      (decide (i < (promote IW t).width) &&
        (if i < t.width then v.testBit i else (t.isSigned && v.testBit (t.width - 1)))) := by
  rw [testBit_convert_trunc _ _ _ _ (Nat.le_refl _)]
  by_cases h : t.width < IW
  · rw [promote_of_lt IW t h, testBit_convert_ext t (cInt IW) v i h hv]
    by_cases hi : i < t.width
    · simp [hi]
    · simp [hi, cInt]
  · have h2 : IW ≤ t.width := by omega
    rw [promote_of_le IW t h2, testBit_convert_trunc _ _ _ _ (Nat.le_refl _)]
    by_cases hi : i < t.width
    · simp [hi]
    · simp [hi]

/-- Bits of an `int` right operand once brought to the common type. -/
theorem testBit_rhs (IW : Nat) (t : CType) (y i : Nat) (hy : y < 2 ^ IW) :
    (convert (cInt IW) (promote IW t) (convert (cInt IW) (cInt IW) y)).testBit i =
      (decide (i < (promote IW t).width) &&
        (if i < IW then y.testBit i else y.testBit (IW - 1))) := by
  have hin : convert (cInt IW) (cInt IW) y = y := by
    simp [convert, cInt, Nat.mod_eq_of_lt hy]
  rw [hin]
  by_cases h : IW < t.width
  · rw [promote_of_le IW t (Nat.le_of_lt h)]
    rw [testBit_convert_ext (cInt IW) t y i h hy]
    by_cases hi : i < IW
    · have : i < t.width := by omega
      simp [hi, cInt, this]
    · simp [hi, cInt]
  · have hw : (promote IW t).width = IW := by
      by_cases h3 : t.width < IW
      · rw [promote_of_lt IW t h3]; rfl
      · rw [promote_of_le IW t (by omega)]; omega
    rw [testBit_convert_trunc _ _ _ _ (by rw [hw]; exact Nat.le_refl _), hw]
    by_cases hi : i < IW
    · simp [hi]
    · simp [hi]

theorem le_width_promote (IW : Nat) (t : CType) : t.width ≤ (promote IW t).width := by
  by_cases h : t.width < IW
  · rw [promote_of_lt IW t h]; exact Nat.le_of_lt h
  · rw [promote_of_le IW t (by omega)]

theorem int_le_width_promote (IW : Nat) (t : CType) : IW ≤ (promote IW t).width := by
  by_cases h : t.width < IW
  · rw [promote_of_lt IW t h]; exact Nat.le_refl _
  · rw [promote_of_le IW t (by omega)]; omega

/-- Bits of `binary` after integer promotion. -/
theorem testBit_promoted (IW : Nat) (t : CType) (v i : Nat) (hv : v < 2 ^ t.width) :
    (convert t (promote IW t) v).testBit i =
      (decide (i < (promote IW t).width) &&
        (if i < t.width then v.testBit i else (t.isSigned && v.testBit (t.width - 1)))) := by
  have h := testBit_lhs IW t v i hv
  rw [testBit_convert_trunc _ _ _ _ (Nat.le_refl _)] at h
  by_cases hi : i < (promote IW t).width
  · simpa [hi] using h
  · have hlt : convert t (promote IW t) v < 2 ^ (promote IW t).width := by
      by_cases hw : t.width < IW
      · apply Nat.lt_pow_two_of_testBit
        intro j hj
        rw [promote_of_lt IW t hw] at hj ⊢
        rw [testBit_convert_ext t (cInt IW) v j hw hv]
        have h1 : ¬ j < t.width := by
          have : (cInt IW).width = IW := rfl
          omega
        have h2 : ¬ j < (cInt IW).width := by omega
        simp [h1, h2]
      · rw [promote_of_le IW t (by omega)]
        simp only [convert, Nat.le_refl, if_true]
        exact Nat.mod_lt _ (Nat.pos_pow_of_pos _ (by decide))
    have hle : (promote IW t).width ≤ i := by omega
    rw [Nat.testBit_lt_two_pow (Nat.lt_of_lt_of_le hlt (Nat.pow_le_pow_right (by decide) hle))]
    simp [hi]

/-! ## The mask `1 << bit` -/

theorem shl_one (IW bit : Nat) (h : bit < IW) : shl (cInt IW) 1 bit = some (2 ^ bit) := by
  have hlt : 2 ^ bit < 2 ^ IW := Nat.pow_lt_pow_right (by decide) h
  simp [shl, cInt, h, Nat.one_shiftLeft, Nat.mod_eq_of_lt hlt]

theorem shl_one_none (IW bit : Nat) (h : IW ≤ bit) : shl (cInt IW) 1 bit = none := by
  have : ¬ bit < IW := by omega
  simp [shl, cInt, this]

theorem bnot_mask_lt (IW bit : Nat) : bnot (cInt IW) (2 ^ bit) < 2 ^ IW := by
  have : 0 < 2 ^ IW := Nat.pos_pow_of_pos _ (by decide)
  have h2 : 0 < 2 ^ bit := Nat.pos_pow_of_pos _ (by decide)
  simp only [bnot, cInt]
  omega

theorem testBit_bnot_mask (IW bit i : Nat) (h : bit < IW) :
    (bnot (cInt IW) (2 ^ bit)).testBit i = (decide (i < IW) && !decide (bit = i)) := by
  have hlt : 2 ^ bit < 2 ^ IW := Nat.pow_lt_pow_right (by decide) h
  have e : bnot (cInt IW) (2 ^ bit) = 2 ^ IW - (2 ^ bit + 1) := by
    simp only [bnot, cInt]
    omega
  rw [e, Nat.testBit_two_pow_sub_succ hlt, Nat.testBit_two_pow]

/-! ## Bits of `binary` after a compound assignment -/

theorem assign_lt (t : CType) (r : CType × Nat) (h : t.width ≤ r.1.width) :
    assign t r < 2 ^ t.width := by
  simp only [assign, convert, h, if_true]
  exact Nat.mod_lt _ (Nat.pos_pow_of_pos _ (by decide))

theorem testBit_update (IW : Nat) (f : Nat → Nat → Nat) (g : Bool → Bool → Bool)
    (hf : ∀ x y i, (f x y).testBit i = g (x.testBit i) (y.testBit i))
    (t : CType) (v y i : Nat) (hv : v < 2 ^ t.width) (hy : y < 2 ^ IW) :
    (assign t (binop IW f t v (cInt IW) y)).testBit i =
      (decide (i < t.width) &&
        g (v.testBit i) (if i < IW then y.testBit i else y.testBit (IW - 1))) := by
  rw [binop_cInt]
  simp only [assign]
  rw [testBit_convert_trunc _ _ _ _ (le_width_promote IW t), hf,
    testBit_lhs IW t v i hv, testBit_rhs IW t y i hy]
  by_cases hi : i < t.width
  · have hp : i < (promote IW t).width := Nat.lt_of_lt_of_le hi (le_width_promote IW t)
    simp [hi, hp]
  · simp [hi]

theorem update_lt (IW : Nat) (f : Nat → Nat → Nat) (t : CType) (v y : Nat) :
    assign t (binop IW f t v (cInt IW) y) < 2 ^ t.width := by
  apply assign_lt
  rw [binop_cInt]
  exact le_width_promote IW t

/-! ## The normalized read `bTrue` -/

theorem mod_two_eq_toNat (x : Nat) : x % 2 = (x.testBit 0).toNat := by
  rw [Nat.testBit_zero]
  rcases Nat.mod_two_eq_zero_or_one x with h | h <;> simp [h]

theorem one_as_common (IW : Nat) (t : CType) (hIW : 2 ≤ IW) (ht : 0 < t.width) :
    convert (cInt IW) (promote IW t) (convert (cInt IW) (cInt IW) 1) = 1 := by
  apply Nat.eq_of_testBit_eq
  intro i
  have h1 : (1 : Nat) < 2 ^ IW := Nat.one_lt_two_pow (by omega)
  rw [testBit_rhs IW t 1 i h1]
  have hp : 0 < (promote IW t).width := Nat.lt_of_lt_of_le ht (le_width_promote IW t)
  have hz : ∀ j, (1 : Nat).testBit j = decide (j = 0) := by
    intro j
    have := @Nat.testBit_two_pow 0 j
    simpa [eq_comm] using this
  simp only [hz]
  by_cases hi : i = 0
  · subst hi
    have : 0 < IW := by omega
    simp [hp, this]
  · have h3 : ¬ IW - 1 = 0 := by omega
    simp [hi, h3]

theorem testBit_shr_zero (t : CType) (x n r : Nat) (h : shr t x n = some r) :
    r.testBit 0 = x.testBit n := by
  unfold shr at h
  by_cases hn : n < t.width
  · rw [if_pos hn] at h
    have hr := Option.some.inj h
    rw [← hr]
    by_cases hs : (t.isSigned && x.testBit (t.width - 1)) = true
    · rw [if_pos hs, Nat.testBit_or, testBit_high_ones, Nat.testBit_shiftRight]
      have : ¬ t.width - n ≤ 0 := by omega
      simp [this]
    · rw [if_neg hs, Nat.testBit_shiftRight]
      simp
  · rw [if_neg hn] at h
    cases h

/-- The value of `bTrue`: for a well-formed value and a bit index inside its width the
shift is defined and the result is bit `bit` of the pattern, as the number 1 or 0. -/
theorem bTrue_eq (IW : Nat) (t : CType) (v bit : Nat) (hIW : 2 ≤ IW)
    (hv : v < 2 ^ t.width) (hb : bit < t.width) :
    bTrue IW t v bit = some (v.testBit bit).toNat := by
  have hbp : bit < (promote IW t).width := Nat.lt_of_lt_of_le hb (le_width_promote IW t)
  have hp : 0 < (promote IW t).width := by omega
  obtain ⟨r, hr⟩ : ∃ r, shr (promote IW t) (convert t (promote IW t) v) bit = some r := by
    simp [shr, hbp]
  have h0 : r.testBit 0 = v.testBit bit := by
    rw [testBit_shr_zero _ _ _ _ hr, testBit_promoted IW t v bit hv]
    simp [hbp, hb]
  unfold bTrue
  rw [hr, Option.map_some', binop_cInt, promote_promote]
  simp only
  rw [one_as_common IW t hIW (by omega), Nat.and_one_is_mod, mod_two_eq_toNat,
    testBit_convert_trunc _ _ _ _ (Nat.le_refl _),
    testBit_convert_trunc _ _ _ _ (Nat.le_refl _), h0]
  simp [hp]

/-! ## Reading a bit back after a compound assignment -/

theorem read_update (IW : Nat) (f : Nat → Nat → Nat) (g : Bool → Bool → Bool)
    (hf : ∀ x y i, (f x y).testBit i = g (x.testBit i) (y.testBit i))
    (t : CType) (v y i : Nat) (hIW : 2 ≤ IW) (hv : v < 2 ^ t.width) (hy : y < 2 ^ IW)
    (hi : i < t.width) :
    bTrue IW t (assign t (binop IW f t v (cInt IW) y)) i =
      some (g (v.testBit i) (if i < IW then y.testBit i else y.testBit (IW - 1))).toNat := by
  rw [bTrue_eq IW t _ i hIW (update_lt IW f t v y) hi, testBit_update IW f g hf t v y i hv hy]
  simp [hi]

theorem mask_lt (IW bit : Nat) (h : bit < IW) : 2 ^ bit < 2 ^ IW :=
  Nat.pow_lt_pow_right (by decide) h

theorem bSet_eq (IW : Nat) (t : CType) (v bit : Nat) (h : bit < IW) :
    bSet IW t v bit = some (assign t (binop IW (· ||| ·) t v (cInt IW) (2 ^ bit))) := by
  simp [bSet, shl_one IW bit h]

theorem bClear_eq (IW : Nat) (t : CType) (v bit : Nat) (h : bit < IW) :
    bClear IW t v bit =
      some (assign t (binop IW (· &&& ·) t v (cInt IW) (bnot (cInt IW) (2 ^ bit)))) := by
  simp [bClear, shl_one IW bit h]

theorem bFlip_eq (IW : Nat) (t : CType) (v bit : Nat) (h : bit < IW) :
    bFlip IW t v bit = some (assign t (binop IW (· ^^^ ·) t v (cInt IW) (2 ^ bit))) := by
  simp [bFlip, shl_one IW bit h]

theorem bWrite_eq (IW : Nat) (t : CType) (v bit : Nat) (value : Int) :
    bWrite IW t v bit (FlagArg.prim value) =
      if value ≠ 0 then bSet IW t v bit else bClear IW t v bit := by
  simp only [bWrite, bSet, bClear]

/-- The bit of the mask `1 << bit` that meets bit `i` of `binary`, away from `bit`: it is
clear as long as the mask is not sign-extended over `i`. -/
theorem mask_bit_off (IW W bit i : Nat) (hi : i < W) (hne : i ≠ bit)
    (hs : W ≤ IW ∨ bit + 1 < IW) :
    (if i < IW then (2 ^ bit).testBit i else (2 ^ bit).testBit (IW - 1)) = false := by
  by_cases h : i < IW
  · rw [if_pos h, Nat.testBit_two_pow]
    simpa using fun e : bit = i => hne e.symm
  · rw [if_neg h, Nat.testBit_two_pow]
    have : bit ≠ IW - 1 := by omega
    simpa using this

/-- The bit of the inverted mask `~(1 << bit)` that meets bit `i` of `binary`, away from
`bit`: it is set as long as the mask is not sign-extended over `i`. -/
theorem bnot_mask_bit_on (IW W bit i : Nat) (hb : bit < IW) (hi : i < W) (hne : i ≠ bit)
    (hs : W ≤ IW ∨ bit + 1 < IW) :
    (if i < IW then (bnot (cInt IW) (2 ^ bit)).testBit i
      else (bnot (cInt IW) (2 ^ bit)).testBit (IW - 1)) = true := by
  by_cases h : i < IW
  · rw [if_pos h, testBit_bnot_mask IW bit i hb]
    have : ¬ bit = i := fun e => hne e.symm
    simp [h, this]
  · rw [if_neg h, testBit_bnot_mask IW bit (IW - 1) hb]
    have h1 : ¬ bit = IW - 1 := by omega
    have h2 : IW - 1 < IW := by omega
    simp [h1, h2]

/-! ## The masked read `bGet` -/

theorem width_promote_of_le (IW : Nat) (t : CType) (h : t.width ≤ IW) :
    (promote IW t).width = IW := by
  by_cases h3 : t.width < IW
  · rw [promote_of_lt IW t h3]; rfl
  · rw [promote_of_le IW t (by omega)]; omega

/-- Bits of the value of `bGet`, when the mask is not sign-extended over `binary`: only
bit `bit` of `v` survives. -/
theorem testBit_bGet (IW : Nat) (t : CType) (v bit i : Nat) (hv : v < 2 ^ t.width)
    (hb : bit < t.width) (hs : t.width ≤ IW ∨ bit + 1 < IW) :
    ((binop IW (· &&& ·) t v (cInt IW) (2 ^ bit)).2).testBit i =
      (decide (i = bit) && v.testBit bit) := by
  have hbi : bit < IW := by omega
  rw [binop_cInt]
  simp only
  rw [Nat.testBit_and, testBit_lhs IW t v i hv, testBit_rhs IW t _ i (mask_lt IW bit hbi),
    Nat.testBit_two_pow, Nat.testBit_two_pow]
  by_cases hi : i = bit
  · subst hi
    have hp : i < (promote IW t).width := Nat.lt_of_lt_of_le hb (le_width_promote IW t)
    simp [hb, hbi, hp]
  · have hne : ¬ bit = i := fun e => hi e.symm
    by_cases h1 : i < IW
    · simp [hi, hne, h1]
    · rcases hs with hs | hs
      · have : ¬ i < (promote IW t).width := by
          rw [width_promote_of_le IW t hs]; exact h1
        simp [hi, this]
      · have : ¬ bit = IW - 1 := by omega
        simp [hi, h1, this]

theorem bGet_eq (IW : Nat) (t : CType) (v bit : Nat) (hv : v < 2 ^ t.width)
    (hb : bit < t.width) (hs : t.width ≤ IW ∨ bit + 1 < IW) :
    bGet IW t v bit = some (if v.testBit bit = true then 2 ^ bit else 0) := by
  have hbi : bit < IW := by omega
  simp only [bGet, shl_one IW bit hbi, Option.map_some']
  congr 1
  apply Nat.eq_of_testBit_eq
  intro i
  rw [testBit_bGet IW t v bit i hv hb hs]
  by_cases hset : v.testBit bit = true
  · rw [if_pos hset, hset, Nat.testBit_two_pow]
    by_cases hi : i = bit
    · simp [hi]
    · have : ¬ bit = i := fun e => hi e.symm
      simp [hi, this]
  · rw [if_neg hset]
    have : v.testBit bit = false := by simpa using hset
    simp [this]

/-! ## Claims -/

/-- C1, as amended: for every width `IW ≥ 2` of `int`, every integer type `t` (signed or
unsigned, of any width), every well-formed value `v` of `t` and every bit index `bit`
inside the width of `t` that is also below the width of `int`, `bSet` is defined and
`bTrue` on its result at the same index is exactly 1. -/
theorem getBitBool_setBit (IW : Nat) (t : CType) (v bit : Nat) (hIW : 2 ≤ IW)
    (hv : v < 2 ^ t.width) (hb : bit < t.width) (hbi : bit < IW) :
    (bSet IW t v bit).bind (fun r => bTrue IW t r bit) = some 1 := by
  rw [bSet_eq IW t v bit hbi, Option.some_bind,
    read_update IW (· ||| ·) (· || ·) Nat.testBit_or t v (2 ^ bit) bit hIW hv
      (mask_lt IW bit hbi) hb]
  simp [hbi]

/-- C1, the 8-bit scenario of the specification: `bSet` on `0b00000000` at bit 4 gives
`0b00010000`, and the bit reads back as 1. -/
theorem getBitBool_setBit_witness :
    bSet 16 u8 0b00000000 4 = some 0b00010000 ∧
      (bSet 16 u8 0b00000000 4).bind (fun r => bTrue 16 u8 r 4) = some 1 :=
  ⟨by decide, getBitBool_setBit 16 u8 0 4 (by decide) (by decide) (by decide) (by decide)⟩

/-- C1 fails as stated for a value wider than `int`: on a 16-bit `int` target, for the
well-formed `uint32_t` value 0 and the bit index 20 of its width, the shift `1 << 20` is
undefined, so `bSet` produces no value and the bit does not read back as 1. -/
theorem getBitBool_setBit_counterexample :
    (0 < 2 ^ u32.width ∧ 20 < u32.width) ∧ bSet 16 u32 0 20 = none ∧
      (bSet 16 u32 0 20).bind (fun r => bTrue 16 u32 r 20) ≠ some 1 := by
  decide

/-- C2, as amended: for every width `IW ≥ 2` of `int`, every integer type `t`, every
well-formed value `v` of `t` and every bit index `bit` inside the width of `t` that is
also below the width of `int`, `bClear` is defined and `bTrue` on its result at the same
index is exactly 0. -/
theorem getBitBool_clearBit (IW : Nat) (t : CType) (v bit : Nat) (hIW : 2 ≤ IW)
    (hv : v < 2 ^ t.width) (hb : bit < t.width) (hbi : bit < IW) :
    (bClear IW t v bit).bind (fun r => bTrue IW t r bit) = some 0 := by
  rw [bClear_eq IW t v bit hbi, Option.some_bind,
    read_update IW (· &&& ·) (· && ·) Nat.testBit_and t v _ bit hIW hv
      (bnot_mask_lt IW bit) hb]
  simp [hbi, testBit_bnot_mask IW bit bit hbi]

/-- C2, the 8-bit scenario of the specification: `bClear` on `0b11111111` at bit 2 gives
`0b11111011`, and the bit reads back as 0. -/
theorem getBitBool_clearBit_witness :
    bClear 16 u8 0b11111111 2 = some 0b11111011 ∧
      (bClear 16 u8 0b11111111 2).bind (fun r => bTrue 16 u8 r 2) = some 0 :=
  ⟨by decide,
    getBitBool_clearBit 16 u8 0b11111111 2 (by decide) (by decide) (by decide) (by decide)⟩

/-- C2 fails as stated for a value wider than `int`: on a 16-bit `int` target, for the
well-formed `uint32_t` value `0xFFFFFFFF` and the bit index 20, the shift `1 << 20` is
undefined, so `bClear` produces no value and the bit does not read back as 0. -/
theorem getBitBool_clearBit_counterexample :
    (0xFFFFFFFF < 2 ^ u32.width ∧ 20 < u32.width) ∧ bClear 16 u32 0xFFFFFFFF 20 = none ∧
      (bClear 16 u32 0xFFFFFFFF 20).bind (fun r => bTrue 16 u32 r 20) ≠ some 0 := by
  decide

/-- C4, as amended: for every width `IW` of `int`, every integer type `t`, every
well-formed value `v` of `t` and every bit index `bit` below the width of `int` (so every
index inside the width of `t` that is also below the width of `int`), `bFlip` is defined
and applying it twice at `bit` gives back `v`. -/
theorem flipBit_involution (IW : Nat) (t : CType) (v bit : Nat)
    (hv : v < 2 ^ t.width) (hbi : bit < IW) :
    (bFlip IW t v bit).bind (fun r => bFlip IW t r bit) = some v := by
  rw [bFlip_eq IW t v bit hbi, Option.some_bind, bFlip_eq IW t _ bit hbi]
  congr 1
  apply Nat.eq_of_testBit_eq
  intro i
  rw [testBit_update IW (· ^^^ ·) (fun p q => p ^^ q) Nat.testBit_xor t _ (2 ^ bit) i
      (update_lt IW _ t v _) (mask_lt IW bit hbi),
    testBit_update IW (· ^^^ ·) (fun p q => p ^^ q) Nat.testBit_xor t v (2 ^ bit) i hv
      (mask_lt IW bit hbi)]
  by_cases hi : i < t.width
  · simp [hi]
  · have hle : t.width ≤ i := by omega
    rw [Nat.testBit_lt_two_pow (Nat.lt_of_lt_of_le hv (Nat.pow_le_pow_right (by decide) hle))]
    simp [hi]

/-- C4 at a concrete input: on a 16-bit `int` target, flipping bit 2 of the `uint8_t`
value `0b00000100` twice gives the value back. -/
theorem flipBit_involution_witness :
    (bFlip 16 u8 0b00000100 2).bind (fun r => bFlip 16 u8 r 2) = some 0b00000100 :=
  flipBit_involution 16 u8 0b00000100 2 (by decide) (by decide)

/-- C4 fails as stated for a value wider than `int`: on a 16-bit `int` target, for the
well-formed `uint32_t` value 0 and the bit index 20, the shift `1 << 20` is undefined, so
flipping twice does not give the value back. -/
theorem flipBit_involution_counterexample :
    (0 < 2 ^ u32.width ∧ 20 < u32.width) ∧ bFlip 16 u32 0 20 = none ∧
      (bFlip 16 u32 0 20).bind (fun r => bFlip 16 u32 r 20) ≠ some 0 := by
  decide

/-- C5, the code at a flag written as a conditional expression, on a 16-bit `int`
target and for `uint8_t`.  With a flag that binds tighter than `?`, `bWrite` on
`0b00000000` at bit 7 with the flag 1 gives `0b10000000`, as in the specification.  With
the flag `c ? 0 : 1` and `c = 1`, whose value is 0, `bWrite` on `0b11111111` at bit 7
leaves `0b11111111`, where `bClear` gives `0b01111111`.  With the flag `c ? 2 : 0` and
`c = 1`, whose value is 2, `bWrite` on `0b00000000` at bit 7 leaves `0b00000000`, where
`bSet` gives `0b10000000`. -/
theorem writeBit_flag_reassociates :
    (0b11111111 < 2 ^ u8.width ∧ 7 < u8.width) ∧
    bWrite 16 u8 0b00000000 7 (FlagArg.prim 1) = some 0b10000000 ∧
    (flagValue (FlagArg.cond 1 0 (FlagArg.prim 1)) = 0 ∧
      bWrite 16 u8 0b11111111 7 (FlagArg.cond 1 0 (FlagArg.prim 1)) = some 0b11111111 ∧
      bClear 16 u8 0b11111111 7 = some 0b01111111) ∧
    (flagValue (FlagArg.cond 1 2 (FlagArg.prim 0)) = 2 ∧
      bWrite 16 u8 0b00000000 7 (FlagArg.cond 1 2 (FlagArg.prim 0)) = some 0b00000000 ∧
      bSet 16 u8 0b00000000 7 = some 0b10000000) := by
  decide

/-- C6, as amended: for every width `IW ≥ 2` of `int`, every integer type `t`, every
well-formed value `v` of `t` and every bit index `bit` inside the width of `t`, provided
that `t` is not wider than `int` or that `bit` is below the sign bit of `int`
(`bit + 1 < IW`): `bGet` and `bTrue` are both defined, and `bGet` is 0 exactly when
`bTrue` is 0. -/
theorem getBitMasked_zero_iff (IW : Nat) (t : CType) (v bit : Nat) (hIW : 2 ≤ IW)
    (hv : v < 2 ^ t.width) (hb : bit < t.width) (hs : t.width ≤ IW ∨ bit + 1 < IW) :
    ((∃ m, bGet IW t v bit = some m) ∧ (∃ r, bTrue IW t v bit = some r)) ∧
    (bGet IW t v bit = some 0 ↔ bTrue IW t v bit = some 0) := by
  rw [bGet_eq IW t v bit hv hb hs, bTrue_eq IW t v bit hIW hv hb]
  refine ⟨⟨⟨_, rfl⟩, ⟨_, rfl⟩⟩, ?_⟩
  have hpos : (2 : Nat) ^ bit ≠ 0 := Nat.ne_of_gt (Nat.pos_pow_of_pos _ (by decide))
  by_cases hset : v.testBit bit = true
  · simp [hset, hpos]
  · have : v.testBit bit = false := by simpa using hset
    simp [this]

/-- C6 at concrete inputs: on a 16-bit `int` target, for the `uint8_t` value
`0b00100000` both reads are non-zero at bit 5 and both are zero at bit 1. -/
theorem getBitMasked_zero_iff_witness :
    (((∃ m, bGet 16 u8 0b00100000 5 = some m) ∧ (∃ r, bTrue 16 u8 0b00100000 5 = some r)) ∧
      (bGet 16 u8 0b00100000 5 = some 0 ↔ bTrue 16 u8 0b00100000 5 = some 0)) ∧
    (((∃ m, bGet 16 u8 0b00100000 1 = some m) ∧ (∃ r, bTrue 16 u8 0b00100000 1 = some r)) ∧
      (bGet 16 u8 0b00100000 1 = some 0 ↔ bTrue 16 u8 0b00100000 1 = some 0)) :=
  ⟨getBitMasked_zero_iff 16 u8 0b00100000 5 (by decide) (by decide) (by decide)
      (Or.inl (by decide)),
    getBitMasked_zero_iff 16 u8 0b00100000 1 (by decide) (by decide) (by decide)
      (Or.inl (by decide))⟩

/-- C6 fails as stated for a value wider than `int`, on a 16-bit `int` target.  For the
well-formed `uint32_t` value 0 and bit index 20, `bTrue` is 0 but `bGet` has no value,
the shift `1 << 20` being undefined.  For the well-formed `uint32_t` value `0x10000` and
bit index 15, the mask `1 << 15` is sign-extended to `0xFFFF8000`, so `bGet` is the
non-zero `0x10000` although `bTrue` is 0. -/
theorem getBitMasked_zero_iff_counterexample :
    (0x10000 < 2 ^ u32.width ∧ 20 < u32.width ∧ 15 < u32.width) ∧
    ¬ (bGet 16 u32 0 20 = some 0 ↔ bTrue 16 u32 0 20 = some 0) ∧
    bGet 16 u32 0x10000 15 = some 0x10000 ∧ bTrue 16 u32 0x10000 15 = some 0 ∧
    ¬ (bGet 16 u32 0x10000 15 = some 0 ↔ bTrue 16 u32 0x10000 15 = some 0) := by
  decide

/-- C7: for every width `IW ≥ 2` of `int`, every integer type `t`, signed or unsigned,
every well-formed value `v` of `t` (a two's-complement pattern, so negative values of a
signed type included) and every bit index `bit` inside the width of `t`, `bTrue` is
defined and is exactly 1 when bit `bit` of the pattern is set and exactly 0 otherwise. -/
theorem getBitBool_normalized (IW : Nat) (t : CType) (v bit : Nat) (hIW : 2 ≤ IW)
    (hv : v < 2 ^ t.width) (hb : bit < t.width) :
    bTrue IW t v bit = some (if v.testBit bit = true then 1 else 0) ∧
    (bTrue IW t v bit = some 0 ∨ bTrue IW t v bit = some 1) := by
  rw [bTrue_eq IW t v bit hIW hv hb]
  cases v.testBit bit <;> simp

/-- C7, the 8-bit scenario of the specification and a negative value: for `0b00100000`
`bTrue` is 1 at bit 5 and 0 at bit 1; for the `int8_t` pattern `0x80` (the value -128),
whose promotion and right shift sign-extend, `bTrue` at bit 7 is 1 and at bit 6 is 0. -/
theorem getBitBool_normalized_witness :
    (bTrue 16 u8 0b00100000 5 = some 1 ∧ bTrue 16 u8 0b00100000 1 = some 0) ∧
    (bTrue 16 i8 0x80 7 = some 1 ∧ bTrue 16 i8 0x80 6 = some 0) ∧
    (bTrue 16 u8 0b00100000 5 = some (if Nat.testBit 0b00100000 5 = true then 1 else 0) ∧
      (bTrue 16 u8 0b00100000 5 = some 0 ∨ bTrue 16 u8 0b00100000 5 = some 1)) :=
  ⟨by decide, by decide,
    getBitBool_normalized 16 u8 0b00100000 5 (by decide) (by decide) (by decide)⟩

/-- C8, as amended: for every width `IW` of `int`, every integer type `t`, every
well-formed value `v` of `t` and every bit index `bit` inside the width of `t`, provided
that `t` is not wider than `int` or that `bit` is below the sign bit of `int`
(`bit + 1 < IW`): `bGet` is defined, its value has bit `bit` equal to bit `bit` of `v`
and every other bit clear, and so it is the pattern 0 or the pattern `2 ^ bit`. -/
theorem getBitMasked_isolates (IW : Nat) (t : CType) (v bit : Nat)
    (hv : v < 2 ^ t.width) (hb : bit < t.width) (hs : t.width ≤ IW ∨ bit + 1 < IW) :
    ∃ m, bGet IW t v bit = some m ∧
      (∀ i, m.testBit i = (decide (i = bit) && v.testBit i)) ∧
      (m = if v.testBit bit = true then 2 ^ bit else 0) ∧ (m = 0 ∨ m = 2 ^ bit) := by
  have hbi : bit < IW := by omega
  refine ⟨_, bGet_eq IW t v bit hv hb hs, ?_, rfl, ?_⟩
  · intro i
    have h := testBit_bGet IW t v bit i hv hb hs
    have e := bGet_eq IW t v bit hv hb hs
    simp only [bGet, shl_one IW bit hbi, Option.map_some'] at e
    rw [← Option.some.inj e, h]
    by_cases hi : i = bit
    · simp [hi]
    · simp [hi]
  · by_cases hset : v.testBit bit = true
    · right; rw [if_pos hset]
    · left; rw [if_neg hset]

/-- C8, the 8-bit scenario of the specification: for `0b00100000`, `bGet` at bit 5 is
`0b00100000` and `bGet` at bit 1 is 0. -/
theorem getBitMasked_isolates_witness :
    (bGet 16 u8 0b00100000 5 = some 0b00100000 ∧ bGet 16 u8 0b00100000 1 = some 0) ∧
    ∃ m, bGet 16 u8 0b00100000 5 = some m ∧
      (∀ i, m.testBit i = (decide (i = 5) && Nat.testBit 0b00100000 i)) ∧
      (m = if Nat.testBit 0b00100000 5 = true then 2 ^ 5 else 0) ∧ (m = 0 ∨ m = 2 ^ 5) :=
  ⟨by decide,
    getBitMasked_isolates 16 u8 0b00100000 5 (by decide) (by decide) (Or.inl (by decide))⟩

/-- C8 fails as stated for a value wider than `int`, on a 16-bit `int` target.  For the
well-formed `uint32_t` value `0x100000` and bit index 20, `bGet` has no value, the shift
`1 << 20` being undefined.  For the well-formed `uint32_t` value `0x10000` and bit index
15, the mask `1 << 15` is sign-extended to `0xFFFF8000`, so `bGet` is `0x10000`, which is
neither 0 nor the single-bit mask `2 ^ 15`. -/
theorem getBitMasked_isolates_counterexample :
    (0x100000 < 2 ^ u32.width ∧ 0x10000 < 2 ^ u32.width ∧ 20 < u32.width ∧
      15 < u32.width) ∧
    bGet 16 u32 0x100000 20 = none ∧
    bGet 16 u32 0x10000 15 = some 0x10000 ∧
    bGet 16 u32 0x10000 15 ≠ some 0 ∧ bGet 16 u32 0x10000 15 ≠ some (2 ^ 15) := by
  decide

/-- C9, as amended: for every width `IW` of `int` and every bit index `bit` below that
width, the mask `b(bit)` is defined and is the pattern `2 ^ bit`: its bit `bit` is set and
every other bit is clear. -/
theorem bitMask_single_bit (IW bit : Nat) (hb : bit < IW) :
    ∃ m, b IW bit = some m ∧ m = 2 ^ bit ∧ m.testBit bit = true ∧
      ∀ i, i ≠ bit → m.testBit i = false := by
  refine ⟨2 ^ bit, ?_, rfl, Nat.testBit_two_pow_self, ?_⟩
  · simp only [b]
    exact shl_one IW bit hb
  · intro i hi
    exact Nat.testBit_two_pow_of_ne (fun e => hi e.symm)

/-- C9, the example of the header: `b(2)` gives `0b00000100`. -/
theorem bitMask_single_bit_witness :
    b 16 2 = some 0b00000100 ∧
    ∃ m, b 16 2 = some m ∧ m = 2 ^ 2 ∧ m.testBit 2 = true ∧
      ∀ i, i ≠ 2 → m.testBit i = false :=
  ⟨by decide, bitMask_single_bit 16 2 (by decide)⟩

/-- C9 fails as stated for a width above that of `int`: on a 16-bit `int` target the bit
index 20, inside the width 32, makes the shift `1 << 20` undefined, so `b(20)` is not a
value with bit 20 set. -/
theorem bitMask_single_bit_counterexample :
    20 < u32.width ∧ b 16 20 = none ∧ ¬ ∃ m, b 16 20 = some m ∧ m.testBit 20 = true := by
  refine ⟨by decide, by decide, ?_⟩
  rintro ⟨m, hm, -⟩
  have : b 16 20 = none := by decide
  rw [this] at hm
  cases hm

/-- C10, as amended: for every width `IW ≥ 2` of `int`, every integer type `t`, every
well-formed value `v` of `t` and every bit index `bit` inside the width of `t` that is
also below the width of `int`, `bFlip` is defined and `bTrue` on its result at the same
index is 1 minus `bTrue` on `v`. -/
theorem flipBit_toggles (IW : Nat) (t : CType) (v bit : Nat) (hIW : 2 ≤ IW)
    (hv : v < 2 ^ t.width) (hb : bit < t.width) (hbi : bit < IW) :
    (∃ r, bFlip IW t v bit = some r) ∧
    (bFlip IW t v bit).bind (fun r => bTrue IW t r bit) =
      (bTrue IW t v bit).map (fun x => 1 - x) := by
  refine ⟨⟨_, bFlip_eq IW t v bit hbi⟩, ?_⟩
  rw [bFlip_eq IW t v bit hbi, Option.some_bind,
    read_update IW (· ^^^ ·) (fun p q => p ^^ q) Nat.testBit_xor t v (2 ^ bit) bit hIW hv
      (mask_lt IW bit hbi) hb,
    bTrue_eq IW t v bit hIW hv hb]
  cases v.testBit bit <;> simp [hbi]

/-- C10, the 8-bit scenario of the specification: `bFlip` on `0b00000100` at bit 2 gives
`0b00000000`, and the bit, which read 1, then reads 0. -/
theorem flipBit_toggles_witness :
    (bFlip 16 u8 0b00000100 2 = some 0b00000000 ∧ bTrue 16 u8 0b00000100 2 = some 1) ∧
    (∃ r, bFlip 16 u8 0b00000100 2 = some r) ∧
    (bFlip 16 u8 0b00000100 2).bind (fun r => bTrue 16 u8 r 2) =
      (bTrue 16 u8 0b00000100 2).map (fun x => 1 - x) :=
  ⟨by decide,
    flipBit_toggles 16 u8 0b00000100 2 (by decide) (by decide) (by decide) (by decide)⟩

/-- C10 fails as stated for a value wider than `int`: on a 16-bit `int` target, for the
well-formed `uint32_t` value 0 and the bit index 20, the shift `1 << 20` is undefined, so
`bFlip` produces no value and the bit, which read 0, does not read 1 afterwards. -/
theorem flipBit_toggles_counterexample :
    (0 < 2 ^ u32.width ∧ 20 < u32.width) ∧ bFlip 16 u32 0 20 = none ∧
    bTrue 16 u32 0 20 = some 0 ∧
    (bFlip 16 u32 0 20).bind (fun r => bTrue 16 u32 r 20) ≠
      (bTrue 16 u32 0 20).map (fun x => 1 - x) := by
  decide

/-! ## The macros as native operations on the pattern -/

theorem lt_of_testBit_high (x W : Nat) (hx : x < 2 ^ W) (i : Nat) (hi : ¬ i < W) :
    x.testBit i = false :=
  Nat.testBit_lt_two_pow
    (Nat.lt_of_lt_of_le hx (Nat.pow_le_pow_right (by decide) (by omega)))

theorem testBit_native_mask (W bit i : Nat) (hb : bit < W) :
    (2 ^ W - 1 - 2 ^ bit).testBit i = (decide (i < W) && !decide (bit = i)) := by
  have hlt : 2 ^ bit < 2 ^ W := Nat.pow_lt_pow_right (by decide) hb
  have e : 2 ^ W - 1 - 2 ^ bit = 2 ^ W - (2 ^ bit + 1) := by omega
  rw [e, Nat.testBit_two_pow_sub_succ hlt, Nat.testBit_two_pow]

theorem bSet_native (IW : Nat) (t : CType) (v bit : Nat) (hv : v < 2 ^ t.width)
    (hb : bit < t.width) (hs : t.width ≤ IW ∨ bit + 1 < IW) :
    bSet IW t v bit = some (nativeSet v bit) := by
  have hbi : bit < IW := by omega
  rw [bSet_eq IW t v bit hbi]
  congr 1
  apply Nat.eq_of_testBit_eq
  intro i
  rw [testBit_update IW (· ||| ·) (· || ·) Nat.testBit_or t v (2 ^ bit) i hv
    (mask_lt IW bit hbi)]
  simp only [nativeSet, Nat.testBit_or]
  by_cases hi : i < t.width
  · by_cases hib : i = bit
    · subst hib
      simp [hi, hbi]
    · rw [mask_bit_off IW t.width bit i hi hib hs, Nat.testBit_two_pow_of_ne (Ne.symm hib)]
      simp [hi]
  · have hib : bit ≠ i := by omega
    rw [lt_of_testBit_high v t.width hv i hi, Nat.testBit_two_pow_of_ne hib]
    simp [hi]

theorem bClear_native (IW : Nat) (t : CType) (v bit : Nat) (hv : v < 2 ^ t.width)
    (hb : bit < t.width) (hs : t.width ≤ IW ∨ bit + 1 < IW) :
    bClear IW t v bit = some (nativeClear t.width v bit) := by
  have hbi : bit < IW := by omega
  rw [bClear_eq IW t v bit hbi]
  congr 1
  apply Nat.eq_of_testBit_eq
  intro i
  rw [testBit_update IW (· &&& ·) (· && ·) Nat.testBit_and t v _ i hv
    (bnot_mask_lt IW bit)]
  simp only [nativeClear, Nat.testBit_and, testBit_native_mask t.width bit i hb]
  by_cases hi : i < t.width
  · by_cases hib : i = bit
    · subst hib
      simp [hi, hbi, testBit_bnot_mask IW i i hbi]
    · rw [bnot_mask_bit_on IW t.width bit i hbi hi hib hs]
      have : ¬ bit = i := fun e => hib e.symm
      simp [hi, this]
  · simp [hi]

theorem bFlip_native (IW : Nat) (t : CType) (v bit : Nat) (hv : v < 2 ^ t.width)
    (hb : bit < t.width) (hs : t.width ≤ IW ∨ bit + 1 < IW) :
    bFlip IW t v bit = some (nativeFlip v bit) := by
  have hbi : bit < IW := by omega
  rw [bFlip_eq IW t v bit hbi]
  congr 1
  apply Nat.eq_of_testBit_eq
  intro i
  rw [testBit_update IW (· ^^^ ·) (fun p q => p ^^ q) Nat.testBit_xor t v (2 ^ bit) i hv
    (mask_lt IW bit hbi)]
  simp only [nativeFlip, Nat.testBit_xor]
  by_cases hi : i < t.width
  · by_cases hib : i = bit
    · subst hib
      simp [hi, hbi]
    · rw [mask_bit_off IW t.width bit i hi hib hs, Nat.testBit_two_pow_of_ne (Ne.symm hib)]
      simp [hi]
  · have hib : bit ≠ i := by omega
    rw [lt_of_testBit_high v t.width hv i hi, Nat.testBit_two_pow_of_ne hib]
    simp [hi]

theorem nativeSet_lt (W v bit : Nat) (hv : v < 2 ^ W) (hb : bit < W) :
    nativeSet v bit < 2 ^ W :=
  Nat.or_lt_two_pow hv (Nat.pow_lt_pow_right (by decide) hb)

theorem nativeClear_lt (W v bit : Nat) (hv : v < 2 ^ W) :
    nativeClear W v bit < 2 ^ W :=
  Nat.lt_of_le_of_lt Nat.and_le_left hv

theorem nativeFlip_lt (W v bit : Nat) (hv : v < 2 ^ W) (hb : bit < W) :
    nativeFlip v bit < 2 ^ W :=
  Nat.xor_lt_two_pow hv (Nat.pow_lt_pow_right (by decide) hb)

theorem testBit_nativeSet (v bit i : Nat) :
    (nativeSet v bit).testBit i = (v.testBit i || decide (bit = i)) := by
  simp [nativeSet, Nat.testBit_two_pow]

theorem testBit_nativeClear (W v bit i : Nat) (hb : bit < W) :
    (nativeClear W v bit).testBit i = (v.testBit i && (decide (i < W) && !decide (bit = i))) := by
  simp only [nativeClear, Nat.testBit_and, testBit_native_mask W bit i hb]

theorem testBit_nativeFlip (v bit i : Nat) :
    (nativeFlip v bit).testBit i = (v.testBit i ^^ decide (bit = i)) := by
  simp [nativeFlip, Nat.testBit_two_pow]

/-! ## Claims on composed operations and on definedness -/

/-- C11, as amended: for every width `IW ≥ 2` of `int`, every integer type `t`, every
well-formed value `v` of `t`, every bit index `bit` inside the width of `t` that is also
below the width of `int`, and every `x` that is 0 or 1, written as a flag that binds
tighter than the conditional operator (a literal, a variable, a parenthesised
expression): `bWrite` with the flag `x` is defined and `bTrue` on its result at the same
index is exactly `x`. -/
theorem readBack_write (IW : Nat) (t : CType) (v bit x : Nat) (hIW : 2 ≤ IW)
    (hv : v < 2 ^ t.width) (hb : bit < t.width) (hbi : bit < IW) (hx : x ≤ 1) :
    (bWrite IW t v bit (FlagArg.prim (x : Int))).bind (fun r => bTrue IW t r bit) =
      some x := by
  rw [bWrite_eq]
  have hcases : x = 0 ∨ x = 1 := by omega
  rcases hcases with h0 | h1
  · subst h0
    rw [if_neg (by simp), bClear_eq IW t v bit hbi, Option.some_bind,
      read_update IW (· &&& ·) (· && ·) Nat.testBit_and t v _ bit hIW hv
        (bnot_mask_lt IW bit) hb]
    simp [hbi, testBit_bnot_mask IW bit bit hbi]
  · subst h1
    rw [if_pos (by simp), bSet_eq IW t v bit hbi, Option.some_bind,
      read_update IW (· ||| ·) (· || ·) Nat.testBit_or t v (2 ^ bit) bit hIW hv
        (mask_lt IW bit hbi) hb]
    simp [hbi]

/-- C11 at the examples of the header: on a 16-bit `int` target, writing 1 to bit 6 of
the `uint8_t` value 0 reads back as 1, and writing 0 to bit 7 of `0b11111111` reads back
as 0. -/
theorem readBack_write_witness :
    (bWrite 16 u8 0 6 (FlagArg.prim 1) = some 0b01000000 ∧
      bWrite 16 u8 0b11111111 7 (FlagArg.prim 0) = some 0b01111111) ∧
    (bWrite 16 u8 0 6 (FlagArg.prim ((1 : Nat) : Int))).bind
      (fun r => bTrue 16 u8 r 6) = some 1 ∧
    (bWrite 16 u8 0b11111111 7 (FlagArg.prim ((0 : Nat) : Int))).bind
      (fun r => bTrue 16 u8 r 7) = some 0 :=
  ⟨by decide,
    readBack_write 16 u8 0 6 1 (by decide) (by decide) (by decide) (by decide) (by decide),
    readBack_write 16 u8 0b11111111 7 0 (by decide) (by decide) (by decide) (by decide)
      (by decide)⟩

/-- C11 fails as stated, on a 16-bit `int` target.  For a value wider than `int`, the
well-formed `uint32_t` value 0, the bit index 20 and the flag 1, the shift `1 << 20` is
undefined, so `bWrite` produces no value and the bit does not read back as 1.  For the
`uint8_t` value 0, the bit index 6 and the flag `on ? 1 : 0` with `on = 1`, whose value
is 1, the expansion assigns nothing, `binary` stays 0 and the bit reads back as 0. -/
theorem readBack_write_counterexample :
    ((0 < 2 ^ u32.width ∧ 20 < u32.width) ∧ bWrite 16 u32 0 20 (FlagArg.prim 1) = none ∧
      (bWrite 16 u32 0 20 (FlagArg.prim 1)).bind (fun r => bTrue 16 u32 r 20) ≠ some 1) ∧
    ((0 < 2 ^ u8.width ∧ 6 < u8.width) ∧
      flagValue (FlagArg.cond 1 1 (FlagArg.prim 0)) = 1 ∧
      bWrite 16 u8 0 6 (FlagArg.cond 1 1 (FlagArg.prim 0)) = some 0 ∧
      (bWrite 16 u8 0 6 (FlagArg.cond 1 1 (FlagArg.prim 0))).bind
        (fun r => bTrue 16 u8 r 6) = some 0) := by
  decide

/-- C12, the code at values wider than `int`.  With a 16-bit `int` and the well-formed
`uint32_t` value 0: at bit 20 the shift `1 << 20` is undefined and `bSet` has no value,
where the claim expects `0x00100000`; at bit 15 the negative `int` mask is sign-extended
and `bSet` gives `0xFFFF8000`, where the claim expects `0x00008000`.  With a 32-bit `int`
and the well-formed `uint64_t` value 0: at bit 40 `bSet` has no value, and at bit 31 it
gives `0xFFFFFFFF80000000`. -/
theorem bSet_wider_than_int :
    ((0 < 2 ^ u32.width ∧ 20 < u32.width ∧ 15 < u32.width) ∧
      bSet 16 u32 0 20 = none ∧ nativeSet 0 20 = 0x00100000 ∧
      bSet 16 u32 0 15 = some 0xFFFF8000 ∧ nativeSet 0 15 = 0x00008000) ∧
    ((0 < 2 ^ u64.width ∧ 40 < u64.width ∧ 31 < u64.width) ∧
      bSet 32 u64 0 40 = none ∧ bSet 32 u64 0 31 = some 0xFFFFFFFF80000000) := by
  decide

/-- C14: for every width `IW` of `int`, every integer type `t` narrower than `int` (the
unsigned ones, such as `uint8_t`, in particular), every well-formed value `v` of `t` and
every bit index `bit` inside the width of `t`: `bSet`, `bClear` and `bFlip`, computed
through promotion to `int`, the `int` mask or its complement and truncation on
assignment, give the native `v OR 2^b`, `v AND (2^W - 1 - 2^b)` and `v XOR 2^b`; these
results are again below `2 ^ W`; and the complement `~(1 << bit)` has all its bits from
`W` up to the sign bit of `int` set. -/
theorem promotion_is_native (IW : Nat) (t : CType) (v bit : Nat) (hW : t.width < IW)
    (hv : v < 2 ^ t.width) (hb : bit < t.width) :
    (bSet IW t v bit = some (nativeSet v bit) ∧
      bClear IW t v bit = some (nativeClear t.width v bit) ∧
      bFlip IW t v bit = some (nativeFlip v bit)) ∧
    (nativeSet v bit < 2 ^ t.width ∧ nativeClear t.width v bit < 2 ^ t.width ∧
      nativeFlip v bit < 2 ^ t.width) ∧
    (∀ i, t.width ≤ i → i < IW → (bnot (cInt IW) (2 ^ bit)).testBit i = true) := by
  have hs : t.width ≤ IW ∨ bit + 1 < IW := Or.inl (Nat.le_of_lt hW)
  refine ⟨⟨bSet_native IW t v bit hv hb hs, bClear_native IW t v bit hv hb hs,
    bFlip_native IW t v bit hv hb hs⟩,
    ⟨nativeSet_lt t.width v bit hv hb, nativeClear_lt t.width v bit hv,
      nativeFlip_lt t.width v bit hv hb⟩, ?_⟩
  intro i hi hiw
  rw [testBit_bnot_mask IW bit i (by omega)]
  have : ¬ bit = i := by omega
  simp [hiw, this]

/-- C14 at concrete inputs: on a 16-bit `int` target and for `uint8_t`, the three macros
give the values of the 8-bit scenarios of the specification, which are the native
results. -/
theorem promotion_is_native_witness :
    (bSet 16 u8 0b00000000 4 = some 0b00010000 ∧
      bClear 16 u8 0b11111111 2 = some 0b11111011 ∧
      bFlip 16 u8 0b00000100 2 = some 0b00000000) ∧
    (bSet 16 u8 0b11111111 2 = some (nativeSet 0b11111111 2) ∧
      bClear 16 u8 0b11111111 2 = some (nativeClear u8.width 0b11111111 2) ∧
      bFlip 16 u8 0b11111111 2 = some (nativeFlip 0b11111111 2)) ∧
    (nativeSet 0b11111111 2 < 2 ^ u8.width ∧ nativeClear u8.width 0b11111111 2 < 2 ^ u8.width ∧
      nativeFlip 0b11111111 2 < 2 ^ u8.width) ∧
    (∀ i, u8.width ≤ i → i < 16 → (bnot (cInt 16) (2 ^ 2)).testBit i = true) :=
  ⟨by decide, promotion_is_native 16 u8 0b11111111 2 (by decide) (by decide) (by decide)⟩

theorem nativeSet_nativeSet (v bit : Nat) :
    nativeSet (nativeSet v bit) bit = nativeSet v bit := by
  apply Nat.eq_of_testBit_eq
  intro i
  simp only [testBit_nativeSet]
  cases v.testBit i <;> cases decide (bit = i) <;> rfl

theorem nativeClear_nativeClear (W v bit : Nat) (hb : bit < W) :
    nativeClear W (nativeClear W v bit) bit = nativeClear W v bit := by
  apply Nat.eq_of_testBit_eq
  intro i
  simp only [testBit_nativeClear W _ bit i hb]
  cases v.testBit i <;> cases decide (i < W) <;> cases decide (bit = i) <;> rfl

theorem nativeClear_nativeSet (W v bit : Nat) (hb : bit < W) :
    nativeClear W (nativeSet v bit) bit = nativeClear W v bit := by
  apply Nat.eq_of_testBit_eq
  intro i
  simp only [testBit_nativeClear W _ bit i hb, testBit_nativeSet]
  cases v.testBit i <;> cases decide (i < W) <;> cases decide (bit = i) <;> rfl

theorem nativeSet_nativeClear (W v bit : Nat) (hv : v < 2 ^ W) (hb : bit < W) :
    nativeSet (nativeClear W v bit) bit = nativeSet v bit := by
  apply Nat.eq_of_testBit_eq
  intro i
  simp only [testBit_nativeClear W _ bit i hb, testBit_nativeSet]
  by_cases hi : i < W
  · simp only [hi, decide_True]
    cases v.testBit i <;> cases decide (bit = i) <;> rfl
  · rw [lt_of_testBit_high v W hv i hi]
    rfl

/-- C15, as amended: for every width `IW` of `int`, every integer type `t` not wider than
`int`, every well-formed value `v` of `t` and every bit index `bit` inside the width of
`t`: for flags that bind tighter than the conditional operator (a literal, a variable, a
parenthesised expression), `bWrite` has a value for every flag, and a second `bWrite` at
the same bit overrides the first whatever the two flags; `bSet` and `bClear` are
idempotent and each overrides the other. -/
theorem last_write_wins (IW : Nat) (t : CType) (v bit : Nat) (hW : t.width ≤ IW)
    (hv : v < 2 ^ t.width) (hb : bit < t.width) :
    ((∀ f : Int, ∃ r, bWrite IW t v bit (FlagArg.prim f) = some r) ∧
      ∀ f1 f2 : Int, (bWrite IW t v bit (FlagArg.prim f1)).bind
        (fun r => bWrite IW t r bit (FlagArg.prim f2)) =
          bWrite IW t v bit (FlagArg.prim f2)) ∧
    ((bSet IW t v bit).bind (fun r => bSet IW t r bit) = bSet IW t v bit ∧
      (bClear IW t v bit).bind (fun r => bClear IW t r bit) = bClear IW t v bit) ∧
    ((bSet IW t v bit).bind (fun r => bClear IW t r bit) = bClear IW t v bit ∧
      (bClear IW t v bit).bind (fun r => bSet IW t r bit) = bSet IW t v bit) := by
  have hs : t.width ≤ IW ∨ bit + 1 < IW := Or.inl hW
  have eS := bSet_native IW t v bit hv hb hs
  have eC := bClear_native IW t v bit hv hb hs
  have hSlt := nativeSet_lt t.width v bit hv hb
  have hClt := nativeClear_lt t.width v bit hv
  have hSS : (bSet IW t v bit).bind (fun r => bSet IW t r bit) = bSet IW t v bit := by
    rw [eS, Option.some_bind, bSet_native IW t _ bit hSlt hb hs, nativeSet_nativeSet]
  have hCC : (bClear IW t v bit).bind (fun r => bClear IW t r bit) = bClear IW t v bit := by
    rw [eC, Option.some_bind, bClear_native IW t _ bit hClt hb hs,
      nativeClear_nativeClear t.width v bit hb]
  have hSC : (bSet IW t v bit).bind (fun r => bClear IW t r bit) = bClear IW t v bit := by
    rw [eS, Option.some_bind, bClear_native IW t _ bit hSlt hb hs, eC,
      nativeClear_nativeSet t.width v bit hb]
  have hCS : (bClear IW t v bit).bind (fun r => bSet IW t r bit) = bSet IW t v bit := by
    rw [eC, Option.some_bind, bSet_native IW t _ bit hClt hb hs, eS,
      nativeSet_nativeClear t.width v bit hv hb]
  refine ⟨⟨?_, ?_⟩, ⟨hSS, hCC⟩, ⟨hSC, hCS⟩⟩
  · intro f
    rw [bWrite_eq]
    by_cases hf : f ≠ 0
    · rw [if_pos hf]; exact ⟨_, eS⟩
    · rw [if_neg hf]; exact ⟨_, eC⟩
  · intro f1 f2
    simp only [bWrite_eq]
    by_cases h1 : f1 ≠ 0 <;> by_cases h2 : f2 ≠ 0
    · rw [if_pos h1, if_pos h2]; simpa only [if_pos h2] using hSS
    · rw [if_pos h1, if_neg h2]; simpa only [if_neg h2] using hSC
    · rw [if_neg h1, if_pos h2]; simpa only [if_pos h2] using hCS
    · rw [if_neg h1, if_neg h2]; simpa only [if_neg h2] using hCC

/-- C15 at concrete inputs: on a 16-bit `int` target and for the `uint8_t` value
`0b00100000` at bit 5, writing the flag 0 after the flag 7 is writing the flag 0, and the
value is `0b00000000`. -/
theorem last_write_wins_witness :
    ((bWrite 16 u8 0b00100000 5 (FlagArg.prim 7)).bind
      (fun r => bWrite 16 u8 r 5 (FlagArg.prim 0)) = some 0b00000000) ∧
    (((∀ f : Int, ∃ r, bWrite 16 u8 0b00100000 5 (FlagArg.prim f) = some r) ∧
      ∀ f1 f2 : Int, (bWrite 16 u8 0b00100000 5 (FlagArg.prim f1)).bind
        (fun r => bWrite 16 u8 r 5 (FlagArg.prim f2)) =
          bWrite 16 u8 0b00100000 5 (FlagArg.prim f2)) ∧
    ((bSet 16 u8 0b00100000 5).bind (fun r => bSet 16 u8 r 5) = bSet 16 u8 0b00100000 5 ∧
      (bClear 16 u8 0b00100000 5).bind (fun r => bClear 16 u8 r 5) =
        bClear 16 u8 0b00100000 5) ∧
    ((bSet 16 u8 0b00100000 5).bind (fun r => bClear 16 u8 r 5) =
        bClear 16 u8 0b00100000 5 ∧
      (bClear 16 u8 0b00100000 5).bind (fun r => bSet 16 u8 r 5) =
        bSet 16 u8 0b00100000 5)) :=
  ⟨by decide, last_write_wins 16 u8 0b00100000 5 (by decide) (by decide) (by decide)⟩

/-- C15 fails as stated for a flag written as a conditional expression: on a 16-bit `int`
target, for the well-formed `uint8_t` value 0, the bit index 5, the first flag 1 and the
second flag `c ? 0 : 1` with `c = 1`, whose value is 0.  The first `bWrite` sets the bit
and the second assigns nothing, so the two writes give `0b00100000`; the second `bWrite`
alone leaves 0, where `bClear` also gives 0. -/
theorem last_write_wins_counterexample :
    (u8.width ≤ 16 ∧ 0 < 2 ^ u8.width ∧ 5 < u8.width) ∧
    flagValue (FlagArg.cond 1 0 (FlagArg.prim 1)) = 0 ∧
    (bWrite 16 u8 0 5 (FlagArg.prim 1)).bind
      (fun r => bWrite 16 u8 r 5 (FlagArg.cond 1 0 (FlagArg.prim 1))) = some 0b00100000 ∧
    bWrite 16 u8 0 5 (FlagArg.cond 1 0 (FlagArg.prim 1)) = some 0 ∧
    (bWrite 16 u8 0 5 (FlagArg.prim 1)).bind
      (fun r => bWrite 16 u8 r 5 (FlagArg.cond 1 0 (FlagArg.prim 1))) ≠
        bWrite 16 u8 0 5 (FlagArg.cond 1 0 (FlagArg.prim 1)) := by
  decide

theorem applyOp_native (IW : Nat) (t : CType) (op : Op) (v bit : Nat)
    (hv : v < 2 ^ t.width) (hb : bit < t.width) (hs : t.width ≤ IW ∨ bit + 1 < IW) :
    applyOp IW t op v bit = some (nativeOp t.width op v bit) := by
  cases op
  · exact bSet_native IW t v bit hv hb hs
  · exact bClear_native IW t v bit hv hb hs
  · exact bFlip_native IW t v bit hv hb hs

theorem nativeOp_lt (W : Nat) (op : Op) (v bit : Nat) (hv : v < 2 ^ W) (hb : bit < W) :
    nativeOp W op v bit < 2 ^ W := by
  cases op
  · exact nativeSet_lt W v bit hv hb
  · exact nativeClear_lt W v bit hv
  · exact nativeFlip_lt W v bit hv hb

theorem nativeOp_comm (W : Nat) (op1 op2 : Op) (v x y : Nat) (hx : x < W) (hy : y < W)
    (hne : x ≠ y) :
    nativeOp W op2 (nativeOp W op1 v x) y = nativeOp W op1 (nativeOp W op2 v y) x := by
  apply Nat.eq_of_testBit_eq
  intro i
  by_cases hi : i < W
  · have key : (x = i ∧ ¬ y = i) ∨ (¬ x = i ∧ y = i) ∨ (¬ x = i ∧ ¬ y = i) := by omega
    rcases key with ⟨h1, h2⟩ | ⟨h1, h2⟩ | ⟨h1, h2⟩ <;>
      cases op1 <;> cases op2 <;>
      simp only [nativeOp, testBit_nativeSet, testBit_nativeClear W _ x i hx,
        testBit_nativeClear W _ y i hy, testBit_nativeFlip] <;>
      cases v.testBit i <;> simp [hi, h1, h2]
  · have h1 : ¬ x = i := by omega
    have h2 : ¬ y = i := by omega
    cases op1 <;> cases op2 <;>
      simp only [nativeOp, testBit_nativeSet, testBit_nativeClear W _ x i hx,
        testBit_nativeClear W _ y i hy, testBit_nativeFlip] <;>
      cases v.testBit i <;> simp [hi, h1, h2]

/-- C16: for every width `IW` of `int`, every integer type `t` not wider than `int`, every
well-formed value `v` of `t`, all distinct bit indices `x` and `y` inside the width of `t`
and any two macros `op1`, `op2` among `bSet`, `bClear` and `bFlip`: both orders of
applying `op1` at `x` and `op2` at `y` have a value, and it is the same value. -/
theorem distinct_bits_commute (IW : Nat) (t : CType) (op1 op2 : Op) (v x y : Nat)
    (hW : t.width ≤ IW) (hv : v < 2 ^ t.width) (hx : x < t.width) (hy : y < t.width)
    (hne : x ≠ y) :
    (∃ r, (applyOp IW t op1 v x).bind (fun u => applyOp IW t op2 u y) = some r) ∧
    (applyOp IW t op1 v x).bind (fun u => applyOp IW t op2 u y) =
      (applyOp IW t op2 v y).bind (fun u => applyOp IW t op1 u x) := by
  have e1 : (applyOp IW t op1 v x).bind (fun u => applyOp IW t op2 u y) =
      some (nativeOp t.width op2 (nativeOp t.width op1 v x) y) := by
    rw [applyOp_native IW t op1 v x hv hx (Or.inl hW), Option.some_bind,
      applyOp_native IW t op2 _ y (nativeOp_lt t.width op1 v x hv hx) hy (Or.inl hW)]
  have e2 : (applyOp IW t op2 v y).bind (fun u => applyOp IW t op1 u x) =
      some (nativeOp t.width op1 (nativeOp t.width op2 v y) x) := by
    rw [applyOp_native IW t op2 v y hv hy (Or.inl hW), Option.some_bind,
      applyOp_native IW t op1 _ x (nativeOp_lt t.width op2 v y hv hy) hx (Or.inl hW)]
  refine ⟨⟨_, e1⟩, ?_⟩
  rw [e1, e2, nativeOp_comm t.width op1 op2 v x y hx hy hne]

/-- C16 at concrete inputs: on a 16-bit `int` target and for the `uint8_t` value
`0b00000100`, flipping bit 2 and setting bit 7 give `0b10000000` in either order. -/
theorem distinct_bits_commute_witness :
    ((bFlip 16 u8 0b00000100 2).bind (fun u => bSet 16 u8 u 7) = some 0b10000000 ∧
      (bSet 16 u8 0b00000100 7).bind (fun u => bFlip 16 u8 u 2) = some 0b10000000) ∧
    (∃ r, (applyOp 16 u8 Op.flip 0b00000100 2).bind (fun u => applyOp 16 u8 Op.set u 7) =
      some r) ∧
    (applyOp 16 u8 Op.flip 0b00000100 2).bind (fun u => applyOp 16 u8 Op.set u 7) =
      (applyOp 16 u8 Op.set 0b00000100 7).bind (fun u => applyOp 16 u8 Op.flip u 2) :=
  ⟨by decide,
    distinct_bits_commute 16 u8 Op.flip Op.set 0b00000100 2 7 (by decide) (by decide)
      (by decide) (by decide) (by decide)⟩

/-! ## Writing back what was read -/

/-- A pattern denotes the integer zero exactly when it is the zero pattern: a flag is
true exactly when its pattern is not zero. -/
theorem valueOf_eq_zero_iff (t : CType) (x : Nat) (hx : x < 2 ^ t.width) :
    valueOf t x = 0 ↔ x = 0 := by
  have hx2 : (x : Int) < 2 ^ t.width := by exact_mod_cast hx
  unfold valueOf
  by_cases hs : (t.isSigned && x.testBit (t.width - 1)) = true
  · rw [if_pos hs]
    have hne : x ≠ 0 := by
      intro h0
      rw [h0] at hs
      simp at hs
    constructor
    · intro h
      generalize (2 : Int) ^ t.width = p at hx2 h
      omega
    · intro h
      exact absurd h hne
  · rw [if_neg hs]
    exact Int.natCast_eq_zero

theorem nativeSet_of_set (v bit : Nat) (h : v.testBit bit = true) : nativeSet v bit = v := by
  apply Nat.eq_of_testBit_eq
  intro i
  rw [testBit_nativeSet]
  by_cases hi : bit = i
  · subst hi
    simp [h]
  · simp [hi]

theorem nativeClear_of_clear (W v bit : Nat) (hv : v < 2 ^ W) (hb : bit < W)
    (h : v.testBit bit = false) : nativeClear W v bit = v := by
  apply Nat.eq_of_testBit_eq
  intro i
  rw [testBit_nativeClear W v bit i hb]
  by_cases hw : i < W
  · by_cases hi : bit = i
    · subst hi
      simp [h]
    · simp [hw, hi]
  · simp [lt_of_testBit_high v W hv i hw]

/-- C17: for every width `IW ≥ 2` of `int`, every integer type `t` not wider than `int`,
every well-formed value `v` of `t` and every bit index `bit` inside the width of `t`:
`bTrue` and `bGet` have a value, and `bWrite` at `bit` with either of them as the flag
(the integer that the value of the expression denotes in its type, the promoted type of
`binary`; both macros expand in parentheses, so the flag binds tighter than the
conditional operator) gives back `v`. -/
theorem write_back_read (IW : Nat) (t : CType) (v bit : Nat) (hIW : 2 ≤ IW)
    (hW : t.width ≤ IW) (hv : v < 2 ^ t.width) (hb : bit < t.width) :
    (bTrue IW t v bit).bind
        (fun r => bWrite IW t v bit (FlagArg.prim (valueOf (promote IW t) r))) =
      some v ∧
    (bGet IW t v bit).bind
        (fun g => bWrite IW t v bit (FlagArg.prim (valueOf (promote IW t) g))) =
      some v := by
  have hs : t.width ≤ IW ∨ bit + 1 < IW := Or.inl hW
  have hbp : bit < (promote IW t).width := Nat.lt_of_lt_of_le hb (le_width_promote IW t)
  have h1 : (1 : Nat) < 2 ^ (promote IW t).width := Nat.one_lt_two_pow (by omega)
  have h2 : 2 ^ bit < 2 ^ (promote IW t).width := Nat.pow_lt_pow_right (by decide) hbp
  have hpos : (2 : Nat) ^ bit ≠ 0 := Nat.ne_of_gt (Nat.pos_pow_of_pos _ (by decide))
  rw [bTrue_eq IW t v bit hIW hv hb, bGet_eq IW t v bit hv hb hs]
  simp only [Option.some_bind, bWrite_eq]
  by_cases hset : v.testBit bit = true
  · have f1 : valueOf (promote IW t) 1 ≠ 0 := fun h =>
      absurd ((valueOf_eq_zero_iff _ 1 h1).1 h) (by decide)
    have f2 : valueOf (promote IW t) (2 ^ bit) ≠ 0 := fun h =>
      hpos ((valueOf_eq_zero_iff _ _ h2).1 h)
    simp only [hset, Bool.toNat_true, if_true, if_pos f1, if_pos f2]
    rw [bSet_native IW t v bit hv hb hs, nativeSet_of_set v bit hset]
    exact ⟨rfl, rfl⟩
  · have hclr : v.testBit bit = false := by simpa using hset
    have f0 : ¬ valueOf (promote IW t) 0 ≠ 0 := fun h =>
      h ((valueOf_eq_zero_iff _ 0 (Nat.pos_pow_of_pos _ (by decide))).2 rfl)
    simp only [hclr, Bool.toNat_false, Bool.false_eq_true, if_false, if_neg f0]
    rw [bClear_native IW t v bit hv hb hs, nativeClear_of_clear t.width v bit hv hb hclr]
    exact ⟨rfl, rfl⟩

/-- C17 at concrete inputs: on a 16-bit `int` target and for the `uint8_t` value
`0b00100000` at bit 5, the two reads are 1 and `0b00100000`, and writing either of them
back gives `0b00100000` again. -/
theorem write_back_read_witness :
    (bTrue 16 u8 0b00100000 5 = some 1 ∧ bGet 16 u8 0b00100000 5 = some 0b00100000) ∧
    ((bTrue 16 u8 0b00100000 5).bind
        (fun r => bWrite 16 u8 0b00100000 5 (FlagArg.prim (valueOf (promote 16 u8) r))) =
      some 0b00100000 ∧
    (bGet 16 u8 0b00100000 5).bind
        (fun g => bWrite 16 u8 0b00100000 5 (FlagArg.prim (valueOf (promote 16 u8) g))) =
      some 0b00100000) :=
  ⟨by decide,
    write_back_read 16 u8 0b00100000 5 (by decide) (by decide) (by decide) (by decide)⟩

end Bits
